import Mathlib

/-!
Verification development for the PynPoint pipeline core
(`PynPoint/Core/Processing.py`).

The data model embeds the persistent array store as an association list
from tags to entries (array content plus attributes).  Arrays are 1-D,
2-D or 3-D integer arrays, a 3-D array being a stack of 2-D frames.
Operations of the port layer (`PynPoint.Core.DataIO`), of the chunk
scheduler helper `memory_frames` (`PynPoint.Util.ModuleTools`) and of the
line-parallel capsule (`PynPoint.Util.Multiprocessing`) are not part of
the sources at hand; they are modelled from the specification and marked
as such in their doc comments.  Everything else is translated from
`ProcessingModule` in `Processing.py`.
-/

namespace PynPoint

/-- A 2-D frame: a list of rows of integer pixels. -/
abbrev Frame := List (List Int)

/-- A 3-D array: a stack of 2-D frames (first axis = frame index / time). -/
abbrev Stack := List Frame

/-- Array content stored under one tag: 1-D, 2-D or 3-D. -/
inductive ArrayData where
  | d1 (vec : List Int)
  | d2 (frame : Frame)
  | d3 (stack : Stack)
deriving DecidableEq, Repr

/-- Number of dimensions of the stored array (`InputPort.get_ndim`). -/
def dataNdim : ArrayData → Nat
  | .d1 _ => 1
  | .d2 _ => 2
  | .d3 _ => 3

/-- One entry of the persistent store: array content plus its attribute map. -/
structure Entry where
  data : ArrayData
  attrs : List (String × Int)
deriving DecidableEq, Repr

/-- The persistent store: an association list from tags to entries. -/
abbrev Store := List (String × Entry)

/-- Find the value bound to a key in an association list. -/
def tblFind {β : Type} : List (String × β) → String → Option β
  | [], _ => none
  | (t, v) :: rest, tag => if t = tag then some v else tblFind rest tag

/-- Replace the binding of a key, or insert it at the end if absent. -/
def tblSet {β : Type} : List (String × β) → String → β → List (String × β)
  | [], tag, v => [(tag, v)]
  | (t, w) :: rest, tag, v =>
      if t = tag then (tag, v) :: rest else (t, w) :: tblSet rest tag v

/-- Remove every binding of a key. -/
def tblDel {β : Type} : List (String × β) → String → List (String × β)
  | [], _ => []
  | (t, w) :: rest, tag =>
      if t = tag then tblDel rest tag else (t, w) :: tblDel rest tag

theorem tblFind_tblSet_self {β : Type} (s : List (String × β)) (tag : String) (v : β) :
    tblFind (tblSet s tag v) tag = some v := by
  induction s with
  | nil => simp [tblSet, tblFind]
  | cons p rest ih =>
    obtain ⟨t, w⟩ := p
    by_cases h : t = tag
    · simp [tblSet, h, tblFind]
    · simp [tblSet, h, tblFind, ih]

theorem tblFind_tblSet_ne {β : Type} (s : List (String × β)) {t tag : String} (v : β)
    (h : t ≠ tag) : tblFind (tblSet s tag v) t = tblFind s t := by
  induction s with
  | nil => simp [tblSet, tblFind, Ne.symm h]
  | cons p rest ih =>
    obtain ⟨t', w⟩ := p
    by_cases h' : t' = tag
    · subst h'
      simp [tblSet, tblFind, Ne.symm h, h]
    · by_cases h'' : t' = t
      · subst h''
        simp [tblSet, tblFind, h', h]
      · simp [tblSet, tblFind, h', h'', ih]

theorem tblSet_tblSet {β : Type} (s : List (String × β)) (tag : String) (v₁ v₂ : β) :
    tblSet (tblSet s tag v₁) tag v₂ = tblSet s tag v₂ := by
  induction s with
  | nil => simp [tblSet]
  | cons p rest ih =>
    obtain ⟨t, w⟩ := p
    by_cases h : t = tag
    · simp [tblSet, h]
    · simp [tblSet, h, ih]

theorem tblSet_eq_self {β : Type} (s : List (String × β)) {tag : String} {v : β}
    (h : tblFind s tag = some v) : tblSet s tag v = s := by
  induction s with
  | nil => simp [tblFind] at h
  | cons p rest ih =>
    obtain ⟨t, w⟩ := p
    by_cases h' : t = tag
    · subst h'
      simp [tblFind] at h
      simp [tblSet, h]
    · simp [tblFind, h'] at h
      simp [tblSet, h', ih h]

theorem tblFind_tblDel_self {β : Type} (s : List (String × β)) (tag : String) :
    tblFind (tblDel s tag) tag = none := by
  induction s with
  | nil => simp [tblDel, tblFind]
  | cons p rest ih =>
    obtain ⟨t, w⟩ := p
    by_cases h : t = tag
    · simp [tblDel, h, ih]
    · simp [tblDel, h, tblFind, ih]

theorem tblFind_tblDel_ne {β : Type} (s : List (String × β)) {t tag : String}
    (h : t ≠ tag) : tblFind (tblDel s tag) t = tblFind s t := by
  induction s with
  | nil => simp [tblDel]
  | cons p rest ih =>
    obtain ⟨t', w⟩ := p
    by_cases h' : t' = tag
    · subst h'
      simp [tblDel, tblFind, Ne.symm h, ih]
    · by_cases h'' : t' = t
      · subst h''
        simp [tblDel, tblFind, h', h]
      · simp [tblDel, tblFind, h', h'', ih]

theorem mem_tblSet {β : Type} {s : List (String × β)} {tag : String} {v : β}
    {q : String × β} (h : q ∈ tblSet s tag v) : q ∈ s ∨ q = (tag, v) := by
  induction s with
  | nil => simp [tblSet] at h; simp [h]
  | cons p rest ih =>
    obtain ⟨t, w⟩ := p
    by_cases h' : t = tag
    · simp [tblSet, h'] at h
      rcases h with h | h
      · right; simp [h]
      · left; simp [h]
    · simp [tblSet, h'] at h
      rcases h with h | h
      · left; simp [h]
      · rcases ih h with h'' | h''
        · left; simp [h'']
        · right; exact h''

/-- Shape of a 2-D frame: the list of its row lengths. -/
def frameShape (fr : Frame) : List Nat := fr.map List.length

/-- Errors surfaced by the processing strategies: `notFound` for a read of a
missing tag, `nameError` for the unguarded Python `NameError` on inputs that
are neither 2-D nor 3-D, and `valueError` for the shape-conflict
`ValueError` raised by `apply_function_to_images` / `apply_function_in_time`. -/
inductive RunError where
  | notFound
  | nameError
  | valueError
deriving DecidableEq, Repr

/-- A store mutation issued through an output port during a run. -/
inductive StoreOp where
  | deleteAll (tag : String)
  | writeAll (tag : String) (data : ArrayData) (keepAttributes : Bool)
  | writeSlice (tag : String) (start : Nat) (result : Stack)
  | append (tag : String) (result : Stack)
deriving DecidableEq, Repr

/-- Modelled from the spec: `OutputPort.set_all` of `PynPoint.Core.DataIO`
(not among the sources): replaces the whole array content under the tag;
with `keepAttributes` the existing attributes are kept, otherwise they are
discarded. -/
def set_all (s : Store) (tag : String) (data : ArrayData) (keepAttributes : Bool) : Store :=
  let ats := if keepAttributes then
      (match tblFind s tag with
       | some e => e.attrs
       | none => [])
    else []
  tblSet s tag ⟨data, ats⟩

/-- Modelled from the spec: the `del_all_attributes` plus `del_all_data` pair
of `PynPoint.Core.DataIO` (spec §4.1 `deleteAll`): removes the array content
and the attributes stored under the tag. -/
def storeDeleteAll (s : Store) (tag : String) : Store := tblDel s tag

/-- Modelled from the spec: `OutputPort.append` of `PynPoint.Core.DataIO`
(not among the sources): extends the array under the tag along its first
axis, creating the entry when it is absent. -/
def appendData (s : Store) (tag : String) (result : Stack) : Store :=
  match tblFind s tag with
  | none => tblSet s tag ⟨.d3 result, []⟩
  | some e =>
    match e.data with
    | .d3 st => tblSet s tag ⟨.d3 (st ++ result), e.attrs⟩
    | _ => tblSet s tag ⟨.d3 result, e.attrs⟩

/-- Modelled from the spec: the slice assignment
`image_out_port[a:b] = result` of `PynPoint.Core.DataIO` (spec §4.1
`writeSlice`): overwrites the frames at positions `a, a+1, ...` with the
given frames; it requires every overwritten position to exist and to hold a
frame of the same shape, otherwise the store layer raises (the `TypeError`
caught in `apply_function_to_images`). -/
def writeSliceStack : Stack → Nat → Stack → Option Stack
  | st, _, [] => some st
  | [], _, _ :: _ => none
  | fr :: rest, 0, r :: rs =>
    if frameShape r = frameShape fr then
      (writeSliceStack rest 0 rs).map (fun st => r :: st)
    else none
  | fr :: rest, a + 1, rs => (writeSliceStack rest a rs).map (fun st => fr :: st)

theorem appendData_appendData (s : Store) (tag : String) (r₁ r₂ : Stack) :
    appendData (appendData s tag r₁) tag r₂ = appendData s tag (r₁ ++ r₂) := by
  unfold appendData
  cases h : tblFind s tag with
  | none =>
    simp [tblFind_tblSet_self, tblSet_tblSet]
  | some e =>
    cases hd : e.data <;>
      simp [hd, tblFind_tblSet_self, tblSet_tblSet, List.append_assoc]

theorem tblFind_appendData_ne (s : Store) {t tag : String} (r : Stack)
    (h : t ≠ tag) : tblFind (appendData s tag r) t = tblFind s t := by
  unfold appendData
  cases hf : tblFind s tag with
  | none => simp [tblFind_tblSet_ne s _ h]
  | some e => cases hd : e.data <;> simp [hd, tblFind_tblSet_ne s _ h]

theorem writeSliceStack_length {st st' : Stack} {a : Nat} {rs : Stack}
    (h : writeSliceStack st a rs = some st') : st'.length = st.length := by
  induction st generalizing a rs st' with
  | nil =>
    cases rs with
    | nil => simp [writeSliceStack] at h; simp [← h]
    | cons r rs' => simp [writeSliceStack] at h
  | cons fr rest ih =>
    cases rs with
    | nil => simp [writeSliceStack] at h; simp [← h]
    | cons r rs' =>
      cases a with
      | zero =>
        by_cases hs : frameShape r = frameShape fr
        · simp [writeSliceStack, hs] at h
          obtain ⟨st₀, h₀, h₁⟩ := h
          simp [← h₁, ih h₀]
        · simp [writeSliceStack, hs] at h
      | succ a' =>
        simp [writeSliceStack] at h
        obtain ⟨st₀, h₀, h₁⟩ := h
        simp [← h₁, ih h₀]

theorem writeSliceStack_cons_succ (fr : Frame) (rest : Stack) (a : Nat) (rs : Stack) :
    writeSliceStack (fr :: rest) (a + 1) rs =
      (writeSliceStack rest a rs).map (fun st => fr :: st) := by
  cases rs with
  | nil => simp [writeSliceStack]
  | cons r rs' => rfl

theorem writeSliceStack_mapped (func : Frame → Frame) :
    ∀ (st : Stack) (a k : Nat),
      a + k ≤ st.length →
      (∀ f ∈ st.drop a, frameShape (func f) = frameShape f) →
      writeSliceStack st a (((st.drop a).take k).map func) =
        some (st.take a ++ ((st.drop a).take k).map func ++ st.drop (a + k)) := by
  intro st
  induction st with
  | nil =>
    intro a k hk _
    have hak : a = 0 ∧ k = 0 := by simp at hk; omega
    obtain ⟨ha, hk0⟩ := hak
    subst ha; subst hk0
    simp [writeSliceStack]
  | cons fr rest ih =>
    intro a k hk hshape
    cases a with
    | zero =>
      cases k with
      | zero => simp [writeSliceStack]
      | succ k' =>
        have hfr : frameShape (func fr) = frameShape fr := by
          apply hshape; simp
        have hrest : ∀ f ∈ rest.drop 0, frameShape (func f) = frameShape f := by
          intro f hf
          apply hshape
          simp at hf
          simp [hf]
        have hk' : 0 + k' ≤ rest.length := by simp at hk; omega
        have := ih 0 k' hk' hrest
        simp only [List.drop_zero] at this ⊢
        simp only [List.take_succ_cons, List.map_cons, writeSliceStack, hfr, if_pos rfl, this]
        simp
    | succ a' =>
      have hk' : a' + k ≤ rest.length := by simp at hk; omega
      have hrest : ∀ f ∈ rest.drop a', frameShape (func f) = frameShape f := by
        intro f hf
        apply hshape
        simpa using hf
      have heq := ih a' k hk' hrest
      have harith : a' + 1 + k = (a' + k) + 1 := by omega
      rw [writeSliceStack_cons_succ, List.drop_succ_cons, heq, harith]
      simp [List.take_succ_cons, List.drop_succ_cons]

/-- Helper for `memory_frames`: chunk boundaries `p, p+m, p+2m, ...`
followed by `n`, generated with explicit fuel (`n` steps always suffice for
`m ≥ 1`, since every step advances the position by `m`). -/
def chunkBoundsAux (m n : Nat) : Nat → Nat → List Nat
  | p, 0 => [p, n]
  | p, fuel + 1 => if p + m < n then p :: chunkBoundsAux m n (p + m) fuel else [p, n]

/-- Modelled from the spec: `memory_frames` of `PynPoint.Util.ModuleTools`
(not among the sources): partitions `[0, nimages)` into chunks of at most
`memory` frames, returning the list of chunk boundaries; a budget of `None`
(or `0`) is unbounded and yields a single chunk. -/
def memory_frames (memory : Option Nat) (nimages : Nat) : List Nat :=
  match memory with
  | none => [0, nimages]
  | some m => if m = 0 then [0, nimages] else chunkBoundsAux m nimages 0 nimages

/-- `Bnds a n l`: `l` is a strictly increasing list of chunk boundaries that
starts at `a` and ends at `n`. -/
inductive Bnds : Nat → Nat → List Nat → Prop where
  | single (n : Nat) : Bnds n n [n]
  | step {a b n : Nat} {rest : List Nat} :
      a < b → Bnds b n (b :: rest) → Bnds a n (a :: b :: rest)

theorem Bnds.start_le {a n : Nat} {l : List Nat} (h : Bnds a n l) : a ≤ n := by
  induction h with
  | single => exact Nat.le_refl _
  | step hab _ ih => omega

theorem chunkBoundsAux_bnds {m n : Nat} (hm : 1 ≤ m) :
    ∀ (fuel p : Nat), p < n → Bnds p n (chunkBoundsAux m n p fuel) := by
  intro fuel
  induction fuel with
  | zero =>
    intro p hp
    exact Bnds.step hp (Bnds.single n)
  | succ fuel' ih =>
    intro p hp
    unfold chunkBoundsAux
    by_cases h : p + m < n
    · rw [if_pos h]
      have hb := ih (p + m) h
      cases hl : chunkBoundsAux m n (p + m) fuel' with
      | nil => rw [hl] at hb; cases hb
      | cons b rest =>
        rw [hl] at hb
        have hhead : b = p + m := by
          cases hb with
          | single => rfl
          | step hab htl => rfl
        subst hhead
        exact Bnds.step (by omega) hb
    · rw [if_neg h]
      exact Bnds.step hp (Bnds.single n)

theorem memory_frames_bnds (memory : Option Nat) {n : Nat} (hn : 1 ≤ n) :
    Bnds 0 n (memory_frames memory n) := by
  cases memory with
  | none => exact Bnds.step hn (Bnds.single n)
  | some m =>
    by_cases hm : m = 0
    · simp [memory_frames, hm]
      exact Bnds.step hn (Bnds.single n)
    · simp [memory_frames, hm]
      exact chunkBoundsAux_bnds (by omega) n 0 hn

theorem memory_frames_zero (memory : Option Nat) : memory_frames memory 0 = [0, 0] := by
  cases memory with
  | none => rfl
  | some m =>
    by_cases hm : m = 0
    · simp [memory_frames, hm]
    · simp [memory_frames, hm, chunkBoundsAux]

theorem memory_frames_one (memory : Option Nat) : memory_frames memory 1 = [0, 1] := by
  cases memory with
  | none => rfl
  | some m =>
    by_cases hm : m = 0
    · simp [memory_frames, hm]
    · simp [memory_frames, hm]
      unfold chunkBoundsAux
      rw [if_neg (by omega)]

theorem Bnds.eq_two {n : Nat} {l : List Nat} (h : Bnds 0 n l) (hl : l.length = 2) :
    l = [0, n] := by
  cases h with
  | single => simp at hl
  | step hab htl =>
    rename_i b rest
    cases htl with
    | single => rfl
    | step hbc htl' => simp at hl

/-- Result of one invocation of `apply_function_to_images`: the error raised
(if any), the store at the moment of return, the frames the transform was
applied to (in call order), and the store operations issued (in order). -/
structure ImagesRunResult where
  error? : Option RunError
  store : Store
  calls : List Frame
  ops : List StoreOp
deriving DecidableEq, Repr

/-- The chunk loop of `ProcessingModule.apply_function_to_images`
(`Processing.py` lines 388-429), one recursive step per consecutive pair of
chunk boundaries.  Each iteration re-reads the input entry from the current
store, applies the transform to every frame of the chunk, and writes the
chunk result according to the output mode: no output port — no write;
output tag equal to the input tag — `set_all` keeping attributes when there
is a single chunk, slice write otherwise (a shape mismatch there raises the
`ValueError` of lines 423-426); different output tag — append.  The frames
read for one chunk (lines 391-394, `chunkImages`) are the whole 2-D frame
when the pre-computed `ndim` is 2, and the slice `[a, b)` of the 3-D stack
when it is 3. -/
def chunkImages (ndim : Nat) (e : Entry) (a b : Nat) : Option Stack :=
  if ndim = 2 then
    match e.data with
    | .d2 fr => some [fr]
    | _ => none
  else
    match e.data with
    | .d3 st => some ((st.drop a).take (b - a))
    | _ => none

theorem chunkImages_d3 (st : Stack) (ats : List (String × Int)) (a b : Nat) :
    chunkImages 3 ⟨.d3 st, ats⟩ a b = some ((st.drop a).take (b - a)) := rfl

theorem chunkImages_d2 (fr : Frame) (ats : List (String × Int)) (a b : Nat) :
    chunkImages 2 ⟨.d2 fr, ats⟩ a b = some [fr] := rfl

def chunkLoop (func : Frame → Frame) (inTag : String) (outTag? : Option String)
    (ndim : Nat) (singleChunk : Bool) :
    List Nat → Store → List Frame → List StoreOp → ImagesRunResult
  | [], s, cs, os => ⟨none, s, cs, os⟩
  | [_], s, cs, os => ⟨none, s, cs, os⟩
  | a :: b :: rest, s, cs, os =>
    match tblFind s inTag with
    | none => ⟨some .notFound, s, cs, os⟩
    | some e =>
      match chunkImages ndim e a b with
      | none => ⟨some .notFound, s, cs, os⟩
      | some images =>
        let result := images.map func
        let cs' := cs ++ images
        match outTag? with
        | none => chunkLoop func inTag outTag? ndim singleChunk (b :: rest) s cs' os
        | some oT =>
          if oT = inTag then
            if singleChunk then
              chunkLoop func inTag outTag? ndim singleChunk (b :: rest)
                (set_all s oT (.d3 result) true) cs'
                (os ++ [.writeAll oT (.d3 result) true])
            else
              match e.data with
              | .d3 st =>
                match writeSliceStack st a result with
                | some st' =>
                  chunkLoop func inTag outTag? ndim singleChunk (b :: rest)
                    (tblSet s oT ⟨.d3 st', e.attrs⟩) cs'
                    (os ++ [.writeSlice oT a result])
                | none => ⟨some .valueError, s, cs', os⟩
              | _ => ⟨some .notFound, s, cs', os⟩
          else
            chunkLoop func inTag outTag? ndim singleChunk (b :: rest)
              (appendData s oT result) cs' (os ++ [.append oT result])

/-- `ProcessingModule.apply_function_to_images` (`Processing.py` lines
337-432).  The input entry is looked up (`get_ndim`, line 375); a 2-D input
counts as one frame and a 3-D input as its first-axis size (lines 377-380);
when an output port is given whose tag differs from the input tag its prior
content and attributes are deleted (lines 382-384); an input that is
neither 2-D nor 3-D leaves the frame count unassigned, so line 386 fails
with the unguarded Python `NameError`; otherwise `memory_frames` partitions
the frames and the chunk loop runs. -/
def apply_function_to_images (func : Frame → Frame) (inTag : String)
    (outTag? : Option String) (memory : Option Nat) (store : Store) : ImagesRunResult :=
  match tblFind store inTag with
  | none => ⟨some .notFound, store, [], []⟩
  | some e =>
    let store1 : Store :=
      match outTag? with
      | some oT => if oT = inTag then store else storeDeleteAll store oT
      | none => store
    let ops1 : List StoreOp :=
      match outTag? with
      | some oT => if oT = inTag then [] else [.deleteAll oT]
      | none => []
    match e.data with
    | .d1 _ => ⟨some .nameError, store1, [], ops1⟩
    | .d2 _ =>
      let frames := memory_frames memory 1
      chunkLoop func inTag outTag? 2 (frames.length == 2) frames store1 [] ops1
    | .d3 st =>
      let frames := memory_frames memory st.length
      chunkLoop func inTag outTag? 3 (frames.length == 2) frames store1 [] ops1

/-- The frames of a 2-D or 3-D input, in first-axis order. -/
def inputFramesOf : ArrayData → List Frame
  | .d1 _ => []
  | .d2 fr => [fr]
  | .d3 st => st

/-- Slice-write trace of an in-place multi-chunk run over boundary list `l`:
one `writeSlice` per chunk, at the chunk's original start index. -/
def sliceOps (func : Frame → Frame) (tag : String) (st : Stack) : List Nat → List StoreOp
  | a :: b :: rest =>
      .writeSlice tag a (((st.drop a).take (b - a)).map func) :: sliceOps func tag st (b :: rest)
  | _ => []

/-- Append trace of a different-tag run over boundary list `l`: one `append`
per chunk, in ascending chunk order. -/
def appendOps (func : Frame → Frame) (tag : String) (st : Stack) : List Nat → List StoreOp
  | a :: b :: rest =>
      .append tag (((st.drop a).take (b - a)).map func) :: appendOps func tag st (b :: rest)
  | _ => []

theorem drop_take_drop {st : Stack} {a b : Nat} (hab : a ≤ b) :
    (st.drop a).take (b - a) ++ st.drop b = st.drop a := by
  have h1 : st.drop b = (st.drop a).drop (b - a) := by
    rw [List.drop_drop]
    congr 1
    omega
  rw [h1, List.take_append_drop]

theorem chunkLoop_none (func : Frame → Frame) (inTag : String) (sc : Bool) :
    ∀ {a n : Nat} {l : List Nat}, Bnds a n l →
      ∀ (st : Stack) (ats : List (String × Int)) (s : Store)
        (cs : List Frame) (os : List StoreOp),
        tblFind s inTag = some ⟨.d3 st, ats⟩ → st.length = n →
        chunkLoop func inTag none 3 sc l s cs os = ⟨none, s, cs ++ st.drop a, os⟩ := by
  intro a n l h
  induction h with
  | single n =>
    intro st ats s cs os hfind hlen
    simp [chunkLoop, ← hlen]
  | step hab htl ih =>
    rename_i a b n rest
    intro st ats s cs os hfind hlen
    have hsplit : (st.drop a).take (b - a) ++ st.drop b = st.drop a :=
      drop_take_drop (Nat.le_of_lt hab)
    simp only [chunkLoop, hfind, chunkImages_d3]
    rw [ih st ats s (cs ++ (st.drop a).take (b - a)) os hfind hlen]
    rw [List.append_assoc, hsplit]

theorem sliceOps_congr (func : Frame → Frame) (tag : String) :
    ∀ {b n : Nat} {l : List Nat}, Bnds b n l →
      ∀ (st st' : Stack), st.drop b = st'.drop b →
        sliceOps func tag st l = sliceOps func tag st' l := by
  intro b n l h
  induction h with
  | single n => intro st st' hd; rfl
  | step hab htl ih =>
    rename_i b c n rest
    intro st st' hd
    have hdc : st.drop c = st'.drop c := by
      have h1 : st.drop c = (st.drop b).drop (c - b) := by
        rw [List.drop_drop]; congr 1; omega
      have h2 : st'.drop c = (st'.drop b).drop (c - b) := by
        rw [List.drop_drop]; congr 1; omega
      rw [h1, h2, hd]
    simp [sliceOps, hd, ih st st' hdc]

theorem chunkLoop_inplace (func : Frame → Frame) (inTag : String) :
    ∀ {a n : Nat} {l : List Nat}, Bnds a n l →
      ∀ (st : Stack) (ats : List (String × Int)) (s : Store)
        (cs : List Frame) (os : List StoreOp),
        tblFind s inTag = some ⟨.d3 st, ats⟩ → st.length = n →
        (∀ f ∈ st.drop a, frameShape (func f) = frameShape f) →
        chunkLoop func inTag (some inTag) 3 false l s cs os =
          ⟨none, tblSet s inTag ⟨.d3 (st.take a ++ (st.drop a).map func), ats⟩,
            cs ++ st.drop a, os ++ sliceOps func inTag st l⟩ := by
  intro a n l h
  induction h with
  | single n =>
    intro st ats s cs os hfind hlen hshape
    have h1 : st.take n = st := by rw [← hlen]; exact List.take_length st
    have h2 : st.drop n = [] := by rw [← hlen]; exact List.drop_length st
    simp [chunkLoop, sliceOps, h1, h2, tblSet_eq_self s hfind]
  | step hab htl ih =>
    rename_i a b n rest
    intro st ats s cs os hfind hlen hshape
    have hab' : a ≤ b := Nat.le_of_lt hab
    have hbn : b ≤ n := htl.start_le
    have hank : a + (b - a) = b := by omega
    have hsplit : (st.drop a).take (b - a) ++ st.drop b = st.drop a := drop_take_drop hab'
    have hW := writeSliceStack_mapped func st a (b - a) (by omega) hshape
    rw [hank] at hW
    have hpre : (st.take a ++ ((st.drop a).take (b - a)).map func).length = b := by
      simp [List.length_take, List.length_map, List.length_drop, hlen]
      omega
    have hassoc :
        st.take a ++ ((st.drop a).take (b - a)).map func ++ st.drop b =
          (st.take a ++ ((st.drop a).take (b - a)).map func) ++ st.drop b := by
      rw [List.append_assoc]
    have hdropb :
        (st.take a ++ ((st.drop a).take (b - a)).map func ++ st.drop b).drop b =
          st.drop b := by
      rw [hassoc]; exact List.drop_left' hpre
    have htakeb :
        (st.take a ++ ((st.drop a).take (b - a)).map func ++ st.drop b).take b =
          st.take a ++ ((st.drop a).take (b - a)).map func := by
      rw [hassoc]; exact List.take_left' hpre
    have hlen₁ :
        (st.take a ++ ((st.drop a).take (b - a)).map func ++ st.drop b).length = n :=
      (writeSliceStack_length hW).trans hlen
    have hshape₁ :
        ∀ f ∈ (st.take a ++ ((st.drop a).take (b - a)).map func ++ st.drop b).drop b,
          frameShape (func f) = frameShape f := by
      intro f hf
      rw [hdropb] at hf
      apply hshape
      have hdd : st.drop b = (st.drop a).drop (b - a) := by
        rw [List.drop_drop]; congr 1; omega
      rw [hdd] at hf
      exact List.mem_of_mem_drop hf
    simp only [chunkLoop, hfind, chunkImages_d3]
    rw [if_pos trivial]
    simp only [Bool.false_eq_true, if_false]
    rw [hW]
    simp only []
    rw [ih _ ats _ _ _ (tblFind_tblSet_self s inTag _) hlen₁ hshape₁]
    simp only [ImagesRunResult.mk.injEq, true_and]
    refine ⟨?_, ?_, ?_⟩
    · rw [tblSet_tblSet, htakeb, hdropb]
      congr 3
      rw [List.append_assoc, ← List.map_append, hsplit]
    · rw [hdropb, List.append_assoc, hsplit]
    · rw [sliceOps_congr func inTag htl _ st hdropb]
      simp [sliceOps, List.append_assoc]

theorem chunkLoop_append (func : Frame → Frame) (inTag oT : String)
    (hne : oT ≠ inTag) (sc : Bool) :
    ∀ {a n : Nat} {l : List Nat}, Bnds a n l →
      ∀ (st : Stack) (ats : List (String × Int)) (s : Store)
        (cs : List Frame) (os : List StoreOp),
        tblFind s inTag = some ⟨.d3 st, ats⟩ → st.length = n →
        chunkLoop func inTag (some oT) 3 sc l s cs os =
          ⟨none, (if a = n then s else appendData s oT ((st.drop a).map func)),
            cs ++ st.drop a, os ++ appendOps func oT st l⟩ := by
  intro a n l h
  induction h with
  | single n =>
    intro st ats s cs os hfind hlen
    have h2 : st.drop n = [] := by rw [← hlen]; exact List.drop_length st
    simp [chunkLoop, appendOps, h2]
  | step hab htl ih =>
    rename_i a b n rest
    intro st ats s cs os hfind hlen
    have hab' : a ≤ b := Nat.le_of_lt hab
    have hbn : b ≤ n := htl.start_le
    have hsplit : (st.drop a).take (b - a) ++ st.drop b = st.drop a := drop_take_drop hab'
    have hfind₁ :
        tblFind (appendData s oT (((st.drop a).take (b - a)).map func)) inTag =
          some ⟨.d3 st, ats⟩ := by
      rw [tblFind_appendData_ne s _ (Ne.symm hne), hfind]
    simp only [chunkLoop, hfind, chunkImages_d3]
    rw [if_neg hne]
    rw [ih st ats _ _ _ hfind₁ hlen]
    simp only [ImagesRunResult.mk.injEq, true_and]
    refine ⟨?_, ?_, ?_⟩
    · rw [if_neg (show ¬(a = n) by omega)]
      by_cases hb : b = n
      · subst hb
        rw [if_pos rfl]
        have himg : (st.drop a).take (b - a) = st.drop a := by
          apply List.take_of_length_le
          simp [List.length_drop, hlen]
        rw [himg]
      · rw [if_neg hb, appendData_appendData]
        rw [← List.map_append, hsplit]
    · rw [List.append_assoc, hsplit]
    · simp [appendOps, List.append_assoc]

theorem chunkLoop_ops_extend (func : Frame → Frame) (inTag : String)
    (outTag? : Option String) (ndim : Nat) (sc : Bool) :
    ∀ (l : List Nat) (s : Store) (cs : List Frame) (os : List StoreOp),
      ∃ t, (chunkLoop func inTag outTag? ndim sc l s cs os).ops = os ++ t ∧
        ∀ tag, StoreOp.deleteAll tag ∉ t := by
  intro l
  induction l with
  | nil =>
    intro s cs os
    exact ⟨[], by simp [chunkLoop], by simp⟩
  | cons a l' ih =>
    cases l' with
    | nil =>
      intro s cs os
      exact ⟨[], by simp [chunkLoop], by simp⟩
    | cons b rest =>
      intro s cs os
      cases hf : tblFind s inTag with
      | none => exact ⟨[], by simp [chunkLoop, hf], by simp⟩
      | some e =>
        cases hci : chunkImages ndim e a b with
        | none => exact ⟨[], by simp [chunkLoop, hf, hci], by simp⟩
        | some images =>
          cases outTag? with
          | none =>
            obtain ⟨t, ht, hno⟩ := ih s (cs ++ images) os
            exact ⟨t, by simp [chunkLoop, hf, hci, ht], hno⟩
          | some oT =>
            by_cases hot : oT = inTag
            · subst hot
              cases sc with
              | true =>
                obtain ⟨t, ht, hno⟩ :=
                  ih (set_all s oT (.d3 (images.map func)) true) (cs ++ images)
                    (os ++ [.writeAll oT (.d3 (images.map func)) true])
                refine ⟨.writeAll oT (.d3 (images.map func)) true :: t, ?_, ?_⟩
                · simp [chunkLoop, hf, hci, ht]
                · intro tag
                  simp
                  exact fun h => (hno tag) h
              | false =>
                cases hd : e.data with
                | d1 v => exact ⟨[], by simp [chunkLoop, hf, hci, hd], by simp⟩
                | d2 fr => exact ⟨[], by simp [chunkLoop, hf, hci, hd], by simp⟩
                | d3 st =>
                  cases hw : writeSliceStack st a (images.map func) with
                  | none => exact ⟨[], by simp [chunkLoop, hf, hci, hd, hw], by simp⟩
                  | some st' =>
                    obtain ⟨t, ht, hno⟩ :=
                      ih (tblSet s oT ⟨.d3 st', e.attrs⟩) (cs ++ images)
                        (os ++ [.writeSlice oT a (images.map func)])
                    refine ⟨.writeSlice oT a (images.map func) :: t, ?_, ?_⟩
                    · simp [chunkLoop, hf, hci, hd, hw, ht]
                    · intro tag
                      simp
                      exact fun h => (hno tag) h
            · obtain ⟨t, ht, hno⟩ :=
                ih (appendData s oT (images.map func)) (cs ++ images)
                  (os ++ [.append oT (images.map func)])
              refine ⟨.append oT (images.map func) :: t, ?_, ?_⟩
              · simp [chunkLoop, hf, hci, hot, ht]
              · intro tag
                simp
                exact fun h => (hno tag) h

theorem chunkLoop_single_inplace (func : Frame → Frame) (inTag : String)
    (st : Stack) (ats : List (String × Int)) (s : Store) (cs : List Frame)
    (os : List StoreOp) (n : Nat)
    (hfind : tblFind s inTag = some ⟨.d3 st, ats⟩) (hlen : st.length = n) :
    chunkLoop func inTag (some inTag) 3 true [0, n] s cs os =
      ⟨none, tblSet s inTag ⟨.d3 (st.map func), ats⟩, cs ++ st,
        os ++ [.writeAll inTag (.d3 (st.map func)) true]⟩ := by
  have h1 : (st.drop 0).take (n - 0) = st := by
    simp [← hlen]
  simp only [chunkLoop, hfind, chunkImages_d3, h1]
  rw [if_pos trivial]
  simp only [if_true]
  simp [chunkLoop, set_all, hfind]

theorem apply_noout (func : Frame → Frame) (inTag : String) (memory : Option Nat)
    (store : Store) (e : Entry) (hin : tblFind store inTag = some e)
    (hnd : dataNdim e.data ≠ 1) :
    apply_function_to_images func inTag none memory store =
      ⟨none, store, inputFramesOf e.data, []⟩ := by
  obtain ⟨dta, ats⟩ := e
  cases dta with
  | d1 v => simp [dataNdim] at hnd
  | d2 fr =>
    simp only [apply_function_to_images, hin]
    rw [memory_frames_one]
    simp [chunkLoop, hin, chunkImages_d2, inputFramesOf]
  | d3 st =>
    by_cases hn : st.length = 0
    · have hst : st = [] := List.length_eq_zero.mp hn
      subst hst
      simp only [apply_function_to_images, hin]
      simp only [List.length_nil]
      rw [memory_frames_zero]
      simp [chunkLoop, hin, chunkImages_d3, inputFramesOf]
    · have hn1 : 1 ≤ st.length := by omega
      have hb := memory_frames_bnds memory hn1
      simp only [apply_function_to_images, hin]
      rw [chunkLoop_none func inTag _ hb st ats store [] [] hin rfl]
      simp [inputFramesOf]

theorem apply_inplace (func : Frame → Frame) (inTag : String) (memory : Option Nat)
    (store : Store) (st : Stack) (ats : List (String × Int))
    (hin : tblFind store inTag = some ⟨.d3 st, ats⟩) (hn : 1 ≤ st.length)
    (hshape : ∀ f ∈ st, frameShape (func f) = frameShape f) :
    apply_function_to_images func inTag (some inTag) memory store =
      ⟨none, tblSet store inTag ⟨.d3 (st.map func), ats⟩, st,
        (if (memory_frames memory st.length).length = 2
         then [.writeAll inTag (.d3 (st.map func)) true]
         else sliceOps func inTag st (memory_frames memory st.length))⟩ := by
  have hb := memory_frames_bnds memory hn
  simp only [apply_function_to_images, hin]
  simp only [if_true]
  by_cases hsc : (memory_frames memory st.length).length = 2
  · have hfr : memory_frames memory st.length = [0, st.length] := hb.eq_two hsc
    rw [hfr]
    have hb2 : (([0, st.length] : List Nat).length == 2) = true := by simp
    rw [hb2]
    rw [chunkLoop_single_inplace func inTag st ats store [] [] st.length hin rfl]
    simp
  · have hscb : ((memory_frames memory st.length).length == 2) = false := by
      simp [hsc]
    rw [hscb]
    have hshape0 : ∀ f ∈ st.drop 0, frameShape (func f) = frameShape f := by
      simpa using hshape
    rw [chunkLoop_inplace func inTag hb st ats store [] [] hin rfl hshape0]
    rw [if_neg hsc]
    simp

theorem apply_difftag (func : Frame → Frame) (inTag oT : String) (memory : Option Nat)
    (store : Store) (st : Stack) (ats : List (String × Int)) (hne : oT ≠ inTag)
    (hin : tblFind store inTag = some ⟨.d3 st, ats⟩) (hn : 1 ≤ st.length) :
    apply_function_to_images func inTag (some oT) memory store =
      ⟨none, appendData (storeDeleteAll store oT) oT (st.map func), st,
        .deleteAll oT :: appendOps func oT st (memory_frames memory st.length)⟩ := by
  have hb := memory_frames_bnds memory hn
  have hfind1 : tblFind (storeDeleteAll store oT) inTag = some ⟨.d3 st, ats⟩ := by
    rw [storeDeleteAll, tblFind_tblDel_ne store (Ne.symm hne)]
    exact hin
  simp only [apply_function_to_images, hin]
  simp only [if_neg hne]
  rw [chunkLoop_append func inTag oT hne _ hb st ats _ [] [.deleteAll oT] hfind1 rfl]
  rw [if_neg (show ¬((0 : Nat) = st.length) by omega)]
  simp

theorem chunkBoundsAux_len (m n : Nat) :
    ∀ (fuel p : Nat), 2 ≤ (chunkBoundsAux m n p fuel).length := by
  intro fuel
  induction fuel with
  | zero => intro p; simp [chunkBoundsAux]
  | succ fuel' ih =>
    intro p
    unfold chunkBoundsAux
    by_cases h : p + m < n
    · rw [if_pos h]
      have := ih (p + m)
      simp
      omega
    · rw [if_neg h]
      simp

theorem chunkBoundsAux_head (m n : Nat) (fuel p : Nat) :
    ∃ tl, chunkBoundsAux m n p fuel = p :: tl := by
  cases fuel with
  | zero => exact ⟨[n], rfl⟩
  | succ fuel' =>
    unfold chunkBoundsAux
    by_cases h : p + m < n
    · rw [if_pos h]
      exact ⟨chunkBoundsAux m n (p + m) fuel', rfl⟩
    · rw [if_neg h]
      exact ⟨[n], rfl⟩

theorem memory_frames_multi {m n : Nat} (hm : 1 ≤ m) (hmn : m < n) :
    ∃ tl, memory_frames (some m) n = 0 :: m :: tl ∧
      ((0 :: m :: tl : List Nat).length == 2) = false := by
  have hn : n ≠ 0 := by omega
  unfold memory_frames
  simp only []
  rw [if_neg (show ¬(m = 0) by omega)]
  cases n with
  | zero => omega
  | succ n' =>
    unfold chunkBoundsAux
    rw [if_pos (by omega)]
    obtain ⟨tl, htl⟩ := chunkBoundsAux_head m (n' + 1) n' (0 + m)
    have hlen := chunkBoundsAux_len m (n' + 1) n' (0 + m)
    rw [htl] at hlen
    simp at hlen
    refine ⟨tl, ?_, ?_⟩
    · rw [htl]
      simp
    · simp only [List.length_cons, beq_eq_false_iff_ne]
      omega

/-- Pixel read `array[y][x]` with zero default (out-of-range reads the
neutral value). -/
def getPixel (fr : Frame) (y x : Nat) : Int := (fr.getD y []).getD x 0

/-- The time series of the input stack at spatial position `(y, x)`
(`image_in_port[:, y, x]`). -/
def signalAt (st : Stack) (y x : Nat) : List Int := st.map (fun fr => getPixel fr y x)

/-- Pixel write `frame[y][x] := v` (a no-op out of range, like `List.set`). -/
def setPixel (fr : Frame) (y x : Nat) (v : Int) : Frame :=
  fr.set y ((fr.getD y []).set x v)

/-- Write a result vector down the column at `(y, x)` of the output stack:
layer `l` receives the vector's `l`-th element. -/
def writeColumn : Stack → Nat → Nat → List Int → Stack
  | [], _, _, _ => []
  | out, _, _, [] => out
  | fr :: rest, y, x, v :: vs => setPixel fr y x v :: writeColumn rest y x vs

/-- One completed work item of the line-parallel capsule: the transform of
the signal at position `p` is written into the output column at `p`. -/
def capsuleStep (func : List Int → List Int) (st : Stack) (out : Stack)
    (p : Nat × Nat) : Stack :=
  writeColumn out p.1 p.2 (func (signalAt st p.1 p.2))

/-- Modelled from the spec: the collection phase of `LineProcessingCapsule`
(`PynPoint.Util.Multiprocessing`, not among the sources, spec §4.3): results
arrive in an arbitrary completion order (`order`) and each is written into
the pre-allocated output at its own position. -/
def capsuleRun (func : List Int → List Int) (st : Stack)
    (order : List (Nat × Nat)) (out0 : Stack) : Stack :=
  order.foldl (capsuleStep func st) out0

theorem getD_set_self {α : Type} (l : List α) (i : Nat) (v d : α) (h : i < l.length) :
    (l.set i v).getD i d = v := by
  simp [List.getD_eq_getElem?_getD, List.getElem?_set_self h]

theorem getD_set_ne {α : Type} (l : List α) {i j : Nat} (v d : α) (h : i ≠ j) :
    (l.set i v).getD j d = l.getD j d := by
  simp [List.getD_eq_getElem?_getD, List.getElem?_set_ne h]

theorem set_of_length_le {α : Type} {l : List α} {i : Nat} (v : α) (h : l.length ≤ i) :
    l.set i v = l := by
  induction l generalizing i with
  | nil => rfl
  | cons a rest ih =>
    cases i with
    | zero => simp at h
    | succ i' =>
      simp at h
      simp [List.set, ih h]

theorem setPixel_comm (fr : Frame) {y x y' x' : Nat} (v v' : Int)
    (h : (y, x) ≠ (y', x')) :
    setPixel (setPixel fr y x v) y' x' v' = setPixel (setPixel fr y' x' v') y x v := by
  by_cases hy : y = y'
  · subst hy
    have hx : x ≠ x' := by
      intro hx
      exact h (by rw [hx])
    by_cases hlen : y < fr.length
    · unfold setPixel
      rw [getD_set_self fr y _ [] hlen, getD_set_self fr y _ [] hlen]
      rw [List.set_set, List.set_set]
      rw [List.set_comm _ _ _ hx]
    · have hset : ∀ r : List Int, fr.set y r = fr := fun r =>
        set_of_length_le r (by omega)
      simp only [setPixel, hset]
  · unfold setPixel
    rw [getD_set_ne _ _ _ (Ne.symm hy), getD_set_ne _ _ _ hy]
    exact List.set_comm _ _ _ hy

theorem writeColumn_nil (out : Stack) (y x : Nat) : writeColumn out y x [] = out := by
  cases out <;> rfl

theorem writeColumn_comm {y x y' x' : Nat} (h : (y, x) ≠ (y', x')) :
    ∀ (out : Stack) (res res' : List Int),
      writeColumn (writeColumn out y x res) y' x' res' =
        writeColumn (writeColumn out y' x' res') y x res := by
  intro out
  induction out with
  | nil =>
    intro res res'
    cases res <;> cases res' <;> simp [writeColumn]
  | cons fr rest ih =>
    intro res res'
    cases res with
    | nil => rw [writeColumn_nil, writeColumn_nil]
    | cons v vs =>
      cases res' with
      | nil => rw [writeColumn_nil, writeColumn_nil]
      | cons v' vs' =>
        simp only [writeColumn]
        rw [setPixel_comm fr v v' h, ih vs vs']

theorem capsuleStep_comm (func : List Int → List Int) (st : Stack) :
    ∀ (out : Stack) (p q : Nat × Nat),
      capsuleStep func st (capsuleStep func st out p) q =
        capsuleStep func st (capsuleStep func st out q) p := by
  intro out p q
  by_cases hpq : p = q
  · rw [hpq]
  · unfold capsuleStep
    apply writeColumn_comm
    intro hcontra
    apply hpq
    obtain ⟨p₁, p₂⟩ := p
    obtain ⟨q₁, q₂⟩ := q
    simpa using hcontra

theorem foldl_perm_of_comm {α β : Type} (f : β → α → β)
    (hc : ∀ (b : β) (a₁ a₂ : α), f (f b a₁) a₂ = f (f b a₂) a₁) :
    ∀ {l₁ l₂ : List α}, l₁.Perm l₂ → ∀ (b : β), l₁.foldl f b = l₂.foldl f b := by
  intro l₁ l₂ hp
  induction hp with
  | nil => intro b; rfl
  | cons x hp ih => intro b; simp only [List.foldl_cons]; exact ih _
  | swap x y l =>
    intro b
    simp only [List.foldl_cons]
    rw [hc]
  | trans hp₁ hp₂ ih₁ ih₂ => intro b; rw [ih₁, ih₂]

theorem capsuleRun_perm (func : List Int → List Int) (st : Stack)
    {o₁ o₂ : List (Nat × Nat)} (hp : o₁.Perm o₂) (out0 : Stack) :
    capsuleRun func st o₁ out0 = capsuleRun func st o₂ out0 :=
  foldl_perm_of_comm (capsuleStep func st) (capsuleStep_comm func st) hp out0

/-- Result of one invocation of `apply_function_in_time`: the error raised
(if any), the store at the moment of return, the number of transform
invocations so far (probe plus workers), the number of work items
dispatched to workers, and the store operations issued. -/
structure TimeRunResult where
  error? : Option RunError
  store : Store
  funcCalls : Nat
  dispatched : Nat
  ops : List StoreOp
deriving DecidableEq, Repr

/-- Second-axis size of a 3-D stack (`get_shape()[1]`). -/
def stackRows (st : Stack) : Nat := (st.head?.getD []).length

/-- Third-axis size of a 3-D stack (`get_shape()[2]`). -/
def stackCols (st : Stack) : Nat := ((st.head?.getD []).head?.getD []).length

/-- The `np.zeros((size, sy, sx))` pre-allocated output of
`apply_function_in_time`. -/
def zerosStack (l y x : Nat) : Stack :=
  List.replicate l (List.replicate y (List.replicate x 0))

/-- `ProcessingModule.apply_function_in_time` (`Processing.py` lines
292-335).  The transform is probed once on the time series at position
`(0, 0)` to learn the output length (line 314); if the output tag equals
the input tag while that length differs from the input frame count, the
`ValueError` of lines 316-318 is raised — before the `set_all`
pre-allocation of line 320 and before the capsule of lines 328-335 runs.
Otherwise the output is pre-allocated with zeros (attributes discarded) and
the line-parallel capsule processes every work item; its completion order
is the `order` parameter (the capsule itself, `LineProcessingCapsule`, is
modelled from spec §4.3, the `Multiprocessing` module not being among the
sources).  The worker count `cpu` (the `CPU` configuration attribute) only
sizes the pool; content never depends on it. -/
def apply_function_in_time (func : List Int → List Int) (inTag outTag : String)
    (cpu : Nat) (order : List (Nat × Nat)) (store : Store) : TimeRunResult :=
  match tblFind store inTag with
  | none => ⟨some .notFound, store, 0, 0, []⟩
  | some e =>
    match e.data with
    | .d3 st =>
      if outTag = inTag ∧ (func (signalAt st 0 0)).length ≠ st.length then
        ⟨some .valueError, store, 1, 0, []⟩
      else
        let zeros := zerosStack (func (signalAt st 0 0)).length (stackRows st) (stackCols st)
        ⟨none,
          tblSet (set_all store outTag (.d3 zeros) false) outTag
            ⟨.d3 (capsuleRun func st order zeros), []⟩,
          1 + order.length, order.length,
          [.writeAll outTag (.d3 zeros) false]⟩
    | _ => ⟨some .notFound, store, 0, 0, []⟩

/-- A port: a tag, an optional bound store connection (identified by a
number), and the activation flag (`activate_init`; input ports are always
created active). -/
structure Port where
  tag : String
  dbConnection : Option Nat
  active : Bool
deriving DecidableEq, Repr

/-- The state of a `ProcessingModule`: its name, the store connection set by
`connect_database` (`self._m_data_base`), the two port dictionaries and the
config port. -/
structure PModule where
  name : String
  dataBase : Option Nat
  inputPorts : List (String × Port)
  outputPorts : List (String × Port)
  configPort : Port
deriving DecidableEq, Repr

/-- Result of `add_input_port`: the updated module and the returned port. -/
structure AddInputResult where
  module : PModule
  port : Port
deriving DecidableEq, Repr

/-- Result of `add_output_port`: the updated module, the returned port, and
whether the duplicate-tag warning was emitted. -/
structure AddOutputResult where
  module : PModule
  port : Port
  warned : Bool
deriving DecidableEq, Repr

/-- `ProcessingModule.add_input_port` (`Processing.py` lines 209-234):
creates a new `InputPort`, binds it to the module's store connection when
one is present, and stores it in the input-port dictionary under its tag. -/
def add_input_port (m : PModule) (tag : String) : AddInputResult :=
  let tmp : Port :=
    match m.dataBase with
    | some db => ⟨tag, some db, true⟩
    | none => ⟨tag, none, true⟩
  ⟨{ m with inputPorts := tblSet m.inputPorts tag tmp }, tmp⟩

/-- `ProcessingModule.add_output_port` (`Processing.py` lines 236-268):
creates a new `OutputPort` with the given activation, warns (without
failing) when the tag is already present in the output-port dictionary,
binds the new port to the module's store connection when one is present,
replaces the dictionary entry and returns the new port. -/
def add_output_port (m : PModule) (tag : String) (activation : Bool) : AddOutputResult :=
  let warned := (tblFind m.outputPorts tag).isSome
  let tmp : Port :=
    match m.dataBase with
    | some db => ⟨tag, some db, activation⟩
    | none => ⟨tag, none, activation⟩
  ⟨{ m with outputPorts := tblSet m.outputPorts tag tmp }, tmp, warned⟩

/-- Bind a port to a store connection (`Port.set_database_connection`). -/
def setConn (p : Port) (db : Nat) : Port := ⟨p.tag, some db, p.active⟩

/-- `ProcessingModule.connect_database` (`Processing.py` lines 270-290):
binds every input port, every output port and the config port to the given
store connection and records the connection on the module. -/
def connect_database (m : PModule) (db : Nat) : PModule :=
  ⟨m.name, some db,
    m.inputPorts.map (fun q => (q.1, setConn q.2 db)),
    m.outputPorts.map (fun q => (q.1, setConn q.2 db)),
    setConn m.configPort db⟩

/-- The port-adding operations a `ProcessingModule` exposes after creation. -/
inductive ModuleOp where
  | addInput (tag : String)
  | addOutput (tag : String) (activation : Bool)
deriving DecidableEq, Repr

def applyModuleOp (m : PModule) : ModuleOp → PModule
  | .addInput t => (add_input_port m t).module
  | .addOutput t a => (add_output_port m t a).module

def applyModuleOps (m : PModule) (ops : List ModuleOp) : PModule :=
  ops.foldl applyModuleOp m

/-- Every port of the module — inputs, outputs and the config port — is
bound to the store connection `db`, which is also the module's recorded
connection. -/
def allBound (m : PModule) (db : Nat) : Prop :=
  m.dataBase = some db ∧
  (∀ q ∈ m.inputPorts, q.2.dbConnection = some db) ∧
  (∀ q ∈ m.outputPorts, q.2.dbConnection = some db) ∧
  m.configPort.dbConnection = some db

theorem allBound_connect (m : PModule) (db : Nat) : allBound (connect_database m db) db := by
  refine ⟨rfl, ?_, ?_, rfl⟩
  · intro q hq
    simp [connect_database] at hq
    obtain ⟨t, p, hmem, hq⟩ := hq
    rw [← hq]
    rfl
  · intro q hq
    simp [connect_database] at hq
    obtain ⟨t, p, hmem, hq⟩ := hq
    rw [← hq]
    rfl

theorem allBound_step (m : PModule) (db : Nat) (op : ModuleOp)
    (h : allBound m db) : allBound (applyModuleOp m op) db := by
  obtain ⟨hdb, hins, houts, hcfg⟩ := h
  cases op with
  | addInput t =>
    refine ⟨hdb, ?_, houts, hcfg⟩
    intro q hq
    simp only [applyModuleOp, add_input_port, hdb] at hq
    rcases mem_tblSet hq with hmem | hnew
    · exact hins q hmem
    · rw [hnew]
  | addOutput t a =>
    refine ⟨hdb, hins, ?_, hcfg⟩
    intro q hq
    simp only [applyModuleOp, add_output_port, hdb] at hq
    rcases mem_tblSet hq with hmem | hnew
    · exact houts q hmem
    · rw [hnew]

theorem allBound_ops (db : Nat) :
    ∀ (ops : List ModuleOp) (m : PModule), allBound m db →
      allBound (applyModuleOps m ops) db := by
  intro ops
  induction ops with
  | nil => intro m h; exact h
  | cons op rest ih =>
    intro m h
    exact ih _ (allBound_step m db op h)

/-- Claim C10: `apply_function_to_images` never validates that the input is
2-D or 3-D; for an input of any other dimensionality (here 1-D) the local
frame-count variable is never assigned and the call fails with the
unguarded `NameError` — outside the spec's error taxonomy — before any
chunk is processed (the transform is never invoked). -/
theorem c10_one_dim_input_raises_nameError (func : Frame → Frame) (inTag : String)
    (outTag? : Option String) (memory : Option Nat) (store : Store)
    (v : List Int) (ats : List (String × Int))
    (hin : tblFind store inTag = some ⟨.d1 v, ats⟩) :
    (apply_function_to_images func inTag outTag? memory store).error? =
      some RunError.nameError ∧
    (apply_function_to_images func inTag outTag? memory store).calls = [] := by
  simp [apply_function_to_images, hin]

def c10func : Frame → Frame := fun fr => fr

def c10store : Store := [("a", ⟨.d1 [1, 2], []⟩)]

theorem c10_witness :
    tblFind c10store "a" = some ⟨.d1 [1, 2], []⟩ ∧
    ((apply_function_to_images c10func "a" (some "b") (some 2) c10store).error? =
        some RunError.nameError ∧
      (apply_function_to_images c10func "a" (some "b") (some 2) c10store).calls = []) :=
  ⟨rfl, c10_one_dim_input_raises_nameError c10func "a" (some "b") (some 2) c10store
    [1, 2] [] rfl⟩

/-- Claim C8: calling `apply_function_to_images` with a null output port
leaves the persistent store entirely unchanged — no store operation of any
kind is issued — while the transform is still applied to every frame of the
input, in order. -/
theorem c8_null_output_port (func : Frame → Frame) (inTag : String)
    (memory : Option Nat) (store : Store) (e : Entry)
    (hin : tblFind store inTag = some e) (hnd : dataNdim e.data ≠ 1) :
    (apply_function_to_images func inTag none memory store).error? = none ∧
    (apply_function_to_images func inTag none memory store).store = store ∧
    (apply_function_to_images func inTag none memory store).ops = [] ∧
    (apply_function_to_images func inTag none memory store).calls =
      inputFramesOf e.data := by
  rw [apply_noout func inTag memory store e hin hnd]
  exact ⟨rfl, rfl, rfl, rfl⟩

def c8func : Frame → Frame := fun fr => fr.map (fun row => row.map (fun z => z + 1))

def c8store : Store := [("im", ⟨.d3 [[[1]], [[2]], [[3]]], [("k", 7)]⟩)]

theorem c8_witness :
    tblFind c8store "im" = some ⟨.d3 [[[1]], [[2]], [[3]]], [("k", 7)]⟩ ∧
    dataNdim (ArrayData.d3 [[[1]], [[2]], [[3]]]) ≠ 1 ∧
    ((apply_function_to_images c8func "im" none (some 2) c8store).error? = none ∧
      (apply_function_to_images c8func "im" none (some 2) c8store).store = c8store ∧
      (apply_function_to_images c8func "im" none (some 2) c8store).ops = [] ∧
      (apply_function_to_images c8func "im" none (some 2) c8store).calls =
        inputFramesOf (ArrayData.d3 [[[1]], [[2]], [[3]]])) :=
  ⟨rfl, by decide,
    c8_null_output_port c8func "im" (some 2) c8store
      ⟨.d3 [[[1]], [[2]], [[3]]], [("k", 7)]⟩ rfl (by decide)⟩

/-- Claim C5: in every run of `apply_function_to_images` with a bound
output port whose tag differs from the input tag, the very first store
operation is the deletion of the output tag's content and attributes —
before any chunk result is written; when the tags are equal no deletion is
ever issued. -/
theorem c5_delete_before_write (func : Frame → Frame) (inTag oT : String)
    (memory : Option Nat) (store : Store) (e : Entry)
    (hin : tblFind store inTag = some e) :
    (oT ≠ inTag →
      (apply_function_to_images func inTag (some oT) memory store).ops.head? =
        some (StoreOp.deleteAll oT)) ∧
    (oT = inTag →
      ∀ t, StoreOp.deleteAll t ∉
        (apply_function_to_images func inTag (some oT) memory store).ops) := by
  obtain ⟨dta, ats⟩ := e
  constructor
  · intro hne
    cases dta with
    | d1 v => simp [apply_function_to_images, hin, hne]
    | d2 fr =>
      simp only [apply_function_to_images, hin]
      simp only [if_neg hne]
      obtain ⟨t, ht, hno⟩ := chunkLoop_ops_extend func inTag (some oT) 2
        ((memory_frames memory 1).length == 2) (memory_frames memory 1)
        (storeDeleteAll store oT) [] [.deleteAll oT]
      rw [ht]
      rfl
    | d3 st =>
      simp only [apply_function_to_images, hin]
      simp only [if_neg hne]
      obtain ⟨t, ht, hno⟩ := chunkLoop_ops_extend func inTag (some oT) 3
        ((memory_frames memory st.length).length == 2) (memory_frames memory st.length)
        (storeDeleteAll store oT) [] [.deleteAll oT]
      rw [ht]
      rfl
  · intro heq t
    subst heq
    cases dta with
    | d1 v => simp [apply_function_to_images, hin]
    | d2 fr =>
      simp only [apply_function_to_images, hin]
      simp only [if_true]
      obtain ⟨tt, ht, hno⟩ := chunkLoop_ops_extend func oT (some oT) 2
        ((memory_frames memory 1).length == 2) (memory_frames memory 1) store [] []
      rw [ht]
      simpa using hno t
    | d3 st =>
      simp only [apply_function_to_images, hin]
      simp only [if_true]
      obtain ⟨tt, ht, hno⟩ := chunkLoop_ops_extend func oT (some oT) 3
        ((memory_frames memory st.length).length == 2) (memory_frames memory st.length)
        store [] []
      rw [ht]
      simpa using hno t

def c5func : Frame → Frame := fun fr => fr

def c5store : Store :=
  [("in", ⟨.d3 [[[1]], [[2]]], []⟩), ("out", ⟨.d3 [[[9]]], [("old", 1)]⟩)]

theorem c5_witness :
    tblFind c5store "in" = some ⟨.d3 [[[1]], [[2]]], []⟩ ∧
    ((("out" : String) ≠ "in" →
      (apply_function_to_images c5func "in" (some "out") (some 1) c5store).ops.head? =
        some (StoreOp.deleteAll "out")) ∧
    (("out" : String) = "in" →
      ∀ t, StoreOp.deleteAll t ∉
        (apply_function_to_images c5func "in" (some "out") (some 1) c5store).ops)) :=
  ⟨rfl, c5_delete_before_write c5func "in" "out" (some 1) c5store
    ⟨.d3 [[[1]], [[2]]], []⟩ rfl⟩

/-- Claim C3: in `apply_function_to_images` with the output tag equal to
the input tag and more than one chunk, a transform whose per-frame output
shape differs from the input frame shape makes the run fail with the
shape-conflict `ValueError` — nothing is written to the store and the
store is left unchanged. -/
theorem c3_inplace_multichunk_shape_conflict (func : Frame → Frame) (inTag : String)
    (m : Nat) (store : Store) (st : Stack) (ats : List (String × Int))
    (hin : tblFind store inTag = some ⟨.d3 st, ats⟩)
    (hm : 1 ≤ m) (hmn : m < st.length)
    (hshape : ∀ f ∈ st, frameShape (func f) ≠ frameShape f) :
    (apply_function_to_images func inTag (some inTag) (some m) store).error? =
      some RunError.valueError ∧
    (apply_function_to_images func inTag (some inTag) (some m) store).store = store ∧
    (apply_function_to_images func inTag (some inTag) (some m) store).ops = [] := by
  obtain ⟨tl, hfr, hscb⟩ := memory_frames_multi hm hmn
  obtain _ | ⟨f₀, st₂⟩ := st
  · simp at hmn
  · obtain _ | m' := m
    · omega
    · have hne : frameShape (func f₀) ≠ frameShape f₀ := hshape f₀ (by simp)
      simp only [apply_function_to_images, hin, hfr, hscb]
      simp only [if_true]
      simp only [chunkLoop, hin, chunkImages_d3]
      simp only [List.drop_zero, Nat.sub_zero, List.take_succ_cons, List.map_cons]
      simp only [writeSliceStack, if_neg hne]
      simp

def c3func : Frame → Frame := fun _ => [[0], [0]]

def c3store : Store := [("a", ⟨.d3 [[[5]], [[7]]], []⟩)]

theorem c3_witness :
    tblFind c3store "a" = some ⟨.d3 [[[5]], [[7]]], []⟩ ∧
    1 ≤ 1 ∧ 1 < ([[[5]], [[7]]] : Stack).length ∧
    (∀ f ∈ ([[[5]], [[7]]] : Stack), frameShape (c3func f) ≠ frameShape f) ∧
    ((apply_function_to_images c3func "a" (some "a") (some 1) c3store).error? =
        some RunError.valueError ∧
      (apply_function_to_images c3func "a" (some "a") (some 1) c3store).store = c3store ∧
      (apply_function_to_images c3func "a" (some "a") (some 1) c3store).ops = []) :=
  ⟨rfl, by decide, by decide, by decide,
    c3_inplace_multichunk_shape_conflict c3func "a" 1 c3store [[[5]], [[7]]] []
      rfl (by decide) (by decide) (by decide)⟩

/-- Claim C2 (amended): when `apply_function_in_time` is called with equal
input and output tags and a transform whose output length differs from the
input frame count, it raises the shape-conflict `ValueError` before any
worker is dispatched and before any write to the store; at that moment the
caller-supplied transform has been invoked exactly once — the single probe
invocation on the time series at position `(0, 0)` used to determine the
output length — not zero times. -/
theorem c2_fail_fast_after_probe (func : List Int → List Int) (inTag outTag : String)
    (cpu : Nat) (order : List (Nat × Nat)) (store : Store) (st : Stack)
    (ats : List (String × Int))
    (hin : tblFind store inTag = some ⟨.d3 st, ats⟩)
    (heq : outTag = inTag)
    (hlen : (func (signalAt st 0 0)).length ≠ st.length) :
    apply_function_in_time func inTag outTag cpu order store =
      ⟨some RunError.valueError, store, 1, 0, []⟩ := by
  simp only [apply_function_in_time, hin]
  rw [if_pos ⟨heq, hlen⟩]

def c2func : List Int → List Int := fun l => l ++ l

def c2store : Store := [("a", ⟨.d3 [[[1]], [[2]]], []⟩)]

/-- Claim C2, counterexample to the claim as stated: at this input the
shape-conflict error is raised, yet the transform has been invoked once
(the probe), not zero times. -/
theorem c2_counterexample :
    (apply_function_in_time c2func "a" "a" 4 [] c2store).error? =
      some RunError.valueError ∧
    (apply_function_in_time c2func "a" "a" 4 [] c2store).funcCalls ≠ 0 := by
  decide

theorem c2_witness :
    tblFind c2store "a" = some ⟨.d3 [[[1]], [[2]]], []⟩ ∧
    ("a" : String) = "a" ∧
    (c2func (signalAt [[[1]], [[2]]] 0 0)).length ≠ ([[[1]], [[2]]] : Stack).length ∧
    apply_function_in_time c2func "a" "a" 4 [] c2store =
      ⟨some RunError.valueError, c2store, 1, 0, []⟩ :=
  ⟨rfl, rfl, by decide,
    c2_fail_fast_after_probe c2func "a" "a" 4 [] c2store [[[1]], [[2]]] []
      rfl rfl (by decide)⟩

theorem apply_inplace_d2 (func : Frame → Frame) (inTag : String) (memory : Option Nat)
    (store : Store) (fr : Frame) (ats : List (String × Int))
    (hin : tblFind store inTag = some ⟨.d2 fr, ats⟩) :
    apply_function_to_images func inTag (some inTag) memory store =
      ⟨none, tblSet store inTag ⟨.d3 [func fr], ats⟩, [fr],
        [.writeAll inTag (.d3 [func fr]) true]⟩ := by
  simp only [apply_function_to_images, hin, memory_frames_one]
  simp only [if_true]
  simp [chunkLoop, hin, chunkImages_d2, set_all]

theorem apply_difftag_d2 (func : Frame → Frame) (inTag oT : String) (memory : Option Nat)
    (store : Store) (fr : Frame) (ats : List (String × Int)) (hne : oT ≠ inTag)
    (hin : tblFind store inTag = some ⟨.d2 fr, ats⟩) :
    apply_function_to_images func inTag (some oT) memory store =
      ⟨none, appendData (storeDeleteAll store oT) oT [func fr], [fr],
        [.deleteAll oT, .append oT [func fr]]⟩ := by
  have hfind1 : tblFind (storeDeleteAll store oT) inTag = some ⟨.d2 fr, ats⟩ := by
    rw [storeDeleteAll, tblFind_tblDel_ne store (Ne.symm hne)]
    exact hin
  simp only [apply_function_to_images, hin, memory_frames_one]
  simp only [if_neg hne]
  simp [chunkLoop, hfind1, chunkImages_d2, hne]

/-- Claim C1, counterexample to the claim as stated: the quantification over
every deterministic transform fails.  With equal input and output tags and
a transform that changes the frame shape, a budget equal to the frame count
(single chunk, full `set_all` write) succeeds and replaces the entry, while
a budget of 1 (multi-chunk slice writes) raises the shape-conflict error
and leaves the entry untouched: the final content under the output tag
differs between the two budgets. -/
theorem c1_counterexample :
    tblFind (apply_function_to_images c3func "a" (some "a") (some 1) c3store).store "a" ≠
      tblFind (apply_function_to_images c3func "a" (some "a") (some 2) c3store).store "a" := by
  decide

/-- Claim C1 (amended): chunk-invariance holds for every deterministic
transform that preserves per-frame shape whenever the output tag equals the
input tag (for a distinct output tag any transform qualifies): for every
2-D or 3-D input and any two memory budgets `b1, b2 ≥ 1` — including a
budget equal to the frame count, i.e. a single chunk — the run raises the
same error (namely none) and produces the identical final store, hence
identical content under the output tag. -/
theorem c1_chunk_invariance (func : Frame → Frame) (inTag : String)
    (outTag? : Option String) (b1 b2 : Nat) (store : Store) (e : Entry)
    (hin : tblFind store inTag = some e) (hnd : dataNdim e.data ≠ 1)
    (hb1 : 1 ≤ b1) (hb2 : 1 ≤ b2)
    (hshape : outTag? = some inTag →
      ∀ f ∈ inputFramesOf e.data, frameShape (func f) = frameShape f) :
    (apply_function_to_images func inTag outTag? (some b1) store).error? =
      (apply_function_to_images func inTag outTag? (some b2) store).error? ∧
    (apply_function_to_images func inTag outTag? (some b1) store).store =
      (apply_function_to_images func inTag outTag? (some b2) store).store := by
  obtain ⟨dta, ats⟩ := e
  cases dta with
  | d1 v => simp [dataNdim] at hnd
  | d2 fr =>
    simp only [apply_function_to_images, hin, memory_frames_one]
    exact ⟨trivial, trivial⟩
  | d3 st =>
    by_cases hn : st.length = 0
    · have hst : st = [] := List.length_eq_zero.mp hn
      subst hst
      simp only [apply_function_to_images, hin, List.length_nil, memory_frames_zero]
      exact ⟨trivial, trivial⟩
    · have hn1 : 1 ≤ st.length := by omega
      cases outTag? with
      | none =>
        rw [apply_noout func inTag (some b1) store _ hin (by simp [dataNdim]),
          apply_noout func inTag (some b2) store _ hin (by simp [dataNdim])]
        exact ⟨rfl, rfl⟩
      | some oT =>
        by_cases hot : oT = inTag
        · subst hot
          have hsh : ∀ f ∈ st, frameShape (func f) = frameShape f := by
            simpa [inputFramesOf] using hshape rfl
          rw [apply_inplace func oT (some b1) store st ats hin hn1 hsh,
            apply_inplace func oT (some b2) store st ats hin hn1 hsh]
          exact ⟨rfl, rfl⟩
        · rw [apply_difftag func inTag oT (some b1) store st ats hot hin hn1,
            apply_difftag func inTag oT (some b2) store st ats hot hin hn1]
          exact ⟨rfl, rfl⟩

def c1func : Frame → Frame := fun fr => fr.map (fun row => row.map (fun z => z * 2))

def c1store : Store := [("a", ⟨.d3 [[[1]], [[2]], [[3]]], [("k", 5)]⟩)]

theorem c1_witness :
    tblFind c1store "a" = some ⟨.d3 [[[1]], [[2]], [[3]]], [("k", 5)]⟩ ∧
    dataNdim (ArrayData.d3 [[[1]], [[2]], [[3]]]) ≠ 1 ∧
    1 ≤ 1 ∧ 1 ≤ 3 ∧
    ((some "a" = some "a") →
      ∀ f ∈ inputFramesOf (ArrayData.d3 [[[1]], [[2]], [[3]]]),
        frameShape (c1func f) = frameShape f) ∧
    ((apply_function_to_images c1func "a" (some "a") (some 1) c1store).error? =
        (apply_function_to_images c1func "a" (some "a") (some 3) c1store).error? ∧
      (apply_function_to_images c1func "a" (some "a") (some 1) c1store).store =
        (apply_function_to_images c1func "a" (some "a") (some 3) c1store).store) :=
  ⟨rfl, by decide, by decide, by decide, by decide,
    c1_chunk_invariance c1func "a" (some "a") 1 3 c1store
      ⟨.d3 [[[1]], [[2]], [[3]]], [("k", 5)]⟩ rfl (by decide) (by decide) (by decide)
      (by decide)⟩

/-- Claim C4: the write policy of `apply_function_to_images` for a bound
output port.  With the output tag equal to the input tag: a single chunk
replaces the whole entry with one full write that keeps the existing
attributes; multiple chunks issue exactly one slice write per chunk, each
at the chunk's original start index, in ascending order.  With a different
output tag, the trace is the initial deletion followed by one append per
chunk in ascending chunk order. -/
theorem c4_write_policy (func : Frame → Frame) (inTag oT : String)
    (memory : Option Nat) (store : Store) (e : Entry)
    (hin : tblFind store inTag = some e) (hnd : dataNdim e.data ≠ 1)
    (hn : 1 ≤ (inputFramesOf e.data).length)
    (hshape : oT = inTag →
      ∀ f ∈ inputFramesOf e.data, frameShape (func f) = frameShape f) :
    (oT = inTag → (memory_frames memory (inputFramesOf e.data).length).length = 2 →
      (apply_function_to_images func inTag (some oT) memory store).ops =
        [.writeAll inTag (.d3 ((inputFramesOf e.data).map func)) true] ∧
      (apply_function_to_images func inTag (some oT) memory store).store =
        tblSet store inTag ⟨.d3 ((inputFramesOf e.data).map func), e.attrs⟩) ∧
    (oT = inTag → (memory_frames memory (inputFramesOf e.data).length).length ≠ 2 →
      (apply_function_to_images func inTag (some oT) memory store).ops =
        sliceOps func inTag (inputFramesOf e.data)
          (memory_frames memory (inputFramesOf e.data).length) ∧
      (apply_function_to_images func inTag (some oT) memory store).error? = none) ∧
    (oT ≠ inTag →
      (apply_function_to_images func inTag (some oT) memory store).ops =
        .deleteAll oT :: appendOps func oT (inputFramesOf e.data)
          (memory_frames memory (inputFramesOf e.data).length)) := by
  obtain ⟨dta, ats⟩ := e
  cases dta with
  | d1 v => simp [dataNdim] at hnd
  | d2 fr =>
    refine ⟨?_, ?_, ?_⟩
    · intro heq hsc
      subst heq
      rw [apply_inplace_d2 func oT memory store fr ats hin]
      simp [inputFramesOf]
    · intro heq hsc
      simp [inputFramesOf, memory_frames_one] at hsc
    · intro hne
      rw [apply_difftag_d2 func inTag oT memory store fr ats hne hin]
      simp [inputFramesOf, memory_frames_one, appendOps]
  | d3 st =>
    simp only [inputFramesOf] at hn hshape ⊢
    refine ⟨?_, ?_, ?_⟩
    · intro heq hsc
      subst heq
      rw [apply_inplace func oT memory store st ats hin hn (hshape rfl)]
      simp [hsc]
    · intro heq hsc
      subst heq
      rw [apply_inplace func oT memory store st ats hin hn (hshape rfl)]
      simp [hsc]
    · intro hne
      rw [apply_difftag func inTag oT memory store st ats hne hin hn]

def c4func : Frame → Frame := fun fr => fr

def c4store : Store := [("in", ⟨.d3 [[[1]], [[2]], [[3]]], [("k", 2)]⟩)]

theorem c4_witness :
    tblFind c4store "in" = some ⟨.d3 [[[1]], [[2]], [[3]]], [("k", 2)]⟩ ∧
    dataNdim (ArrayData.d3 [[[1]], [[2]], [[3]]]) ≠ 1 ∧
    1 ≤ (inputFramesOf (ArrayData.d3 [[[1]], [[2]], [[3]]])).length ∧
    (("out" : String) = "in" →
      ∀ f ∈ inputFramesOf (ArrayData.d3 [[[1]], [[2]], [[3]]]),
        frameShape (c4func f) = frameShape f) ∧
    (("out" : String) ≠ "in" →
      (apply_function_to_images c4func "in" (some "out") (some 2) c4store).ops =
        .deleteAll "out" :: appendOps c4func "out"
          (inputFramesOf (ArrayData.d3 [[[1]], [[2]], [[3]]]))
          (memory_frames (some 2)
            (inputFramesOf (ArrayData.d3 [[[1]], [[2]], [[3]]])).length)) :=
  ⟨rfl, by decide, by decide, by decide,
    (c4_write_policy c4func "in" "out" (some 2) c4store
      ⟨.d3 [[[1]], [[2]], [[3]]], [("k", 2)]⟩ rfl (by decide) (by decide) (by decide)).2.2⟩

/-- Claim C6: parallel order-independence of `apply_function_in_time`.  For
a fixed store, input and transform, the entire outcome — error, final store
content, number of transform invocations and trace — is identical for every
worker count and for any two completion orders of the work items that are
permutations of each other; each position's result is, by construction of
the capsule, the transform of the time series at that position alone. -/
theorem c6_parallel_order_independence (func : List Int → List Int)
    (inTag outTag : String) (cpu₁ cpu₂ : Nat) {o₁ o₂ : List (Nat × Nat)}
    (hp : o₁.Perm o₂) (store : Store) :
    apply_function_in_time func inTag outTag cpu₁ o₁ store =
      apply_function_in_time func inTag outTag cpu₂ o₂ store := by
  unfold apply_function_in_time
  cases hf : tblFind store inTag with
  | none => rfl
  | some e =>
    simp only []
    cases hd : e.data with
    | d1 v => rfl
    | d2 fr => rfl
    | d3 st =>
      simp only []
      by_cases hc : outTag = inTag ∧ (func (signalAt st 0 0)).length ≠ st.length
      · rw [if_pos hc, if_pos hc]
      · rw [if_neg hc, if_neg hc]
        simp only [capsuleRun_perm func st hp, hp.length_eq]

def c6func : List Int → List Int := fun l => l.reverse

def c6store : Store := [("sig", ⟨.d3 [[[1, 2]], [[3, 4]]], []⟩)]

theorem c6_witness :
    ([((0 : Nat), (0 : Nat)), (0, 1)]).Perm [((0 : Nat), (1 : Nat)), (0, 0)] ∧
    apply_function_in_time c6func "sig" "out" 1 [(0, 0), (0, 1)] c6store =
      apply_function_in_time c6func "sig" "out" 8 [(0, 1), (0, 0)] c6store :=
  ⟨List.Perm.swap _ _ _,
    c6_parallel_order_independence c6func "sig" "out" 1 8 (List.Perm.swap _ _ _) c6store⟩

/-- Claim C7: registering an output port under a tag already present in the
module's output-port dictionary is not fatal: the call returns normally, the
duplicate-tag warning is emitted, the prior port is replaced in the
dictionary by the newly created port, and that new port — bound to the
module's store connection and carrying the requested activation — is
returned; the rest of the module (name, connection, input ports) is
untouched. -/
theorem c7_duplicate_output_tag (m : PModule) (tag : String) (activation : Bool)
    (h : (tblFind m.outputPorts tag).isSome = true) :
    (add_output_port m tag activation).warned = true ∧
    tblFind (add_output_port m tag activation).module.outputPorts tag =
      some (add_output_port m tag activation).port ∧
    (add_output_port m tag activation).port.tag = tag ∧
    (add_output_port m tag activation).port.dbConnection = m.dataBase ∧
    (add_output_port m tag activation).port.active = activation ∧
    (add_output_port m tag activation).module.name = m.name ∧
    (add_output_port m tag activation).module.inputPorts = m.inputPorts ∧
    (add_output_port m tag activation).module.dataBase = m.dataBase := by
  cases hdb : m.dataBase with
  | none => simp [add_output_port, hdb, h, tblFind_tblSet_self]
  | some db => simp [add_output_port, hdb, h, tblFind_tblSet_self]

def c7module : PModule :=
  ⟨"mod", some 3, [], [("x", ⟨"x", some 3, true⟩)], ⟨"config", some 3, true⟩⟩

theorem c7_witness :
    (tblFind c7module.outputPorts "x").isSome = true ∧
    ((add_output_port c7module "x" true).warned = true ∧
      tblFind (add_output_port c7module "x" true).module.outputPorts "x" =
        some (add_output_port c7module "x" true).port ∧
      (add_output_port c7module "x" true).port.tag = "x" ∧
      (add_output_port c7module "x" true).port.dbConnection = c7module.dataBase ∧
      (add_output_port c7module "x" true).port.active = true ∧
      (add_output_port c7module "x" true).module.name = c7module.name ∧
      (add_output_port c7module "x" true).module.inputPorts = c7module.inputPorts ∧
      (add_output_port c7module "x" true).module.dataBase = c7module.dataBase) :=
  ⟨rfl, c7_duplicate_output_tag c7module "x" true rfl⟩

/-- Claim C9: after `connect_database db` every input port, every output
port and the config port of the module is bound to the same store
connection `db`, which is also the module's recorded connection; and after
any sequence of subsequent `add_input_port` / `add_output_port` operations
— the port-adding operations the module exposes — every port, including
each newly added one, is still bound to that same connection: the binding
is established at attach time and never changed by the module's
operations. -/
theorem c9_binding_invariant (m : PModule) (db : Nat) (ops : List ModuleOp) :
    allBound (applyModuleOps (connect_database m db) ops) db :=
  allBound_ops db ops _ (allBound_connect m db)

end PynPoint
